import Mathlib

set_option maxRecDepth 2048

/-
Shallow embedding of `src/run.py`: a bauhaus/nnf propositional-constraint
encoding of a 26-round "War"-style card duel between Player A and Player B.

Modelling conventions, fixed once for the whole file:
* Every bauhaus proposition object (`Card`, `Owns`, `Plays`, `Wins`, `Tie`,
  `FinalTie`, `HigherRank`, `SameRank`, `OverallWinner`) becomes a
  constructor of the `Atom` type; structural identity of the Python value
  objects becomes definitional equality of atoms.
* A formula built with the nnf operators `&`, `|`, `~`, `>>` becomes a
  `Form`; the Python builtins `any`/`all`/`sum` applied to lists of
  proposition objects are modelled as big disjunction, big conjunction and
  pseudo-Boolean cardinality (the encoding idiom the code is written in).
  Python operator precedence is kept: `>>` binds tighter than `&`.
* `E.add_constraint` appends to a growing list of `Constraint`s: each
  encoder function is modelled as the list of constraints it adds, in
  order, and the staged accumulated formula is the concatenation of those
  lists in the order `run_simulation` calls them.
* `random.shuffle`/`random.sample` outcomes are explicit parameters
  (a possible shuffled deck, a possible list of sampled favored rounds).
* Python `if`/`while` tests keep Python truthiness semantics: a bare
  proposition object in test position is unconditionally truthy.
-/

inductive Suit
  | hearts
  | diamonds
  | clubs
  | spades
deriving DecidableEq

structure Card where
  rank : Nat
  suit : Suit
deriving DecidableEq

inductive Player
  | A
  | B
deriving DecidableEq

/-- One boolean decision variable of the encoding; mirrors the
`@proposition` classes of `run.py`.  `FinalTie` in the source is applied
both to integer round numbers and to the string `"game"`, hence the two
constructors. -/
inductive Atom
  | owns (p : Player) (c : Card)
  | plays (p : Player) (c : Card) (r : Nat)
  | wins (p : Player) (r : Nat)
  | tie (r : Nat)
  | finalTie (r : Nat)
  | finalTieGame
  | higherRank (c1 c2 : Card)
  | sameRank (c1 c2 : Card)
  | overallWinner (p : Player)
deriving DecidableEq

/-- Propositional formulas as built by the nnf operators in `run.py`. -/
inductive Form
  | tru
  | fls
  | atom (a : Atom)
  | neg (f : Form)
  | conj (f g : Form)
  | disj (f g : Form)
  | impl (f g : Form)
deriving DecidableEq

def Form.eval (v : Atom → Bool) : Form → Bool
  | .tru => true
  | .fls => false
  | .atom a => v a
  | .neg f => !f.eval v
  | .conj f g => f.eval v && g.eval v
  | .disj f g => f.eval v || g.eval v
  | .impl f g => !f.eval v || g.eval v

/-- Big conjunction: Python `all(...)` over a list of formulas
(`all([]) = True`). -/
def bigAnd (l : List Form) : Form := l.foldr Form.conj Form.tru

/-- Big disjunction: Python `any(...)` over a list of formulas
(`any([]) = False`). -/
def bigOr (l : List Form) : Form := l.foldr Form.disj Form.fls

@[simp] theorem bigAnd_eval (v : Atom → Bool) (l : List Form) :
    (bigAnd l).eval v = l.all (fun f => f.eval v) := by
  induction l with
  | nil => rfl
  | cons f l ih => simp [bigAnd, Form.eval, List.all_cons] at ih ⊢; simp [ih]

@[simp] theorem bigOr_eval (v : Atom → Bool) (l : List Form) :
    (bigOr l).eval v = l.any (fun f => f.eval v) := by
  induction l with
  | nil => rfl
  | cons f l ih => simp [bigOr, Form.eval, List.any_cons] at ih ⊢; simp [ih]

/-- The atoms occurring in a formula. -/
def Form.atoms : Form → List Atom
  | .tru => []
  | .fls => []
  | .atom a => [a]
  | .neg f => f.atoms
  | .conj f g => f.atoms ++ g.atoms
  | .disj f g => f.atoms ++ g.atoms
  | .impl f g => f.atoms ++ g.atoms

/-- Number of atoms of the list that the assignment makes true: the value
of a Python `sum(...)` of boolean indicator propositions. -/
def countTrue (v : Atom → Bool) (l : List Atom) : Nat :=
  (l.filter (fun a => v a)).length

/-- One constraint added by `E.add_constraint`: either a plain formula, or
one of the pseudo-Boolean comparison constraints built by
`determine_overall_winner` from `sum(...)` expressions. -/
inductive Constraint
  | form (f : Form)
  | sumGtImp (xs ys : List Atom) (g : Form)
  | sumEqImp (xs ys : List Atom) (g : Form)
deriving DecidableEq

def Constraint.eval (v : Atom → Bool) : Constraint → Bool
  | .form f => f.eval v
  | .sumGtImp xs ys g => !(decide (countTrue v ys < countTrue v xs)) || g.eval v
  | .sumEqImp xs ys g => !(decide (countTrue v xs = countTrue v ys)) || g.eval v

/-- A satisfying assignment of an accumulated list of constraints. -/
def satisfies (v : Atom → Bool) (cs : List Constraint) : Prop :=
  ∀ c ∈ cs, c.eval v = true

theorem satisfies_append (v : Atom → Bool) (l1 l2 : List Constraint) :
    satisfies v (l1 ++ l2) ↔ satisfies v l1 ∧ satisfies v l2 := by
  simp [satisfies, List.mem_append]
  constructor
  · intro h; exact ⟨fun c hc => h c (Or.inl hc), fun c hc => h c (Or.inr hc)⟩
  · rintro ⟨h1, h2⟩ c (hc | hc)
    · exact h1 c hc
    · exact h2 c hc

/-- `RANKS = list(range(1, 14))`. -/
def RANKS : List Nat := (List.range 13).map (fun n => n + 1)

/-- `SUITS = ["hearts", "diamonds", "clubs", "spades"]`. -/
def SUITS : List Suit := [.hearts, .diamonds, .clubs, .spades]

/-- `deck = [Card(rank, suit) for rank in RANKS for suit in SUITS]`. -/
def deck : List Card := RANKS.flatMap (fun r => SUITS.map (fun s => ⟨r, s⟩))

theorem deck_length : deck.length = 52 := by decide

theorem deck_nodup : deck.Nodup := by decide

/-- `shuffle_and_setup_deck` (run.py 87-99), parameterized by the outcome of
`random.shuffle`: the first half of the shuffled deck is asserted owned by
Player A, the second half by Player B. -/
def shuffle_and_setup_deck (shuffled_deck : List Card) : List Constraint :=
  let midpoint := shuffled_deck.length / 2
  (shuffled_deck.take midpoint).map (fun card => Constraint.form (.atom (.owns .A card)))
  ++ (shuffled_deck.drop midpoint).map (fun card => Constraint.form (.atom (.owns .B card)))

/-- `setup_rank_comparisons` (run.py 101-109): for every ordered pair of deck
cards, assert `HigherRank(x,y)` when `x.rank > y.rank`, else `SameRank(x,y)`
when the ranks are equal, else nothing. -/
def setup_rank_comparisons : List Constraint :=
  deck.flatMap (fun card_x => deck.flatMap (fun card_y =>
    if card_x.rank > card_y.rank then [Constraint.form (.atom (.higherRank card_x card_y))]
    else if card_x.rank = card_y.rank then [Constraint.form (.atom (.sameRank card_x card_y))]
    else []))

/-- The generator `(~plays[i] | ~plays[j] for i in range(len(plays)) for j in
range(len(plays)) if i != j)` from `one_of` (run.py 219). -/
def pairwise_excl (plays : List Form) : List Form :=
  (List.range plays.length).flatMap (fun i =>
    (List.range plays.length).filterMap (fun j =>
      if i ≠ j then
        some (Form.disj (Form.neg (plays.getD i Form.fls)) (Form.neg (plays.getD j Form.fls)))
      else none))

/-- `one_of(plays)` (run.py 217-219):
`any(plays) & all(~plays[i] | ~plays[j] ... if i != j)`. -/
def one_of (plays : List Form) : Form :=
  Form.conj (bigOr plays) (bigAnd (pairwise_excl plays))

/-- The constraints `enforce_game_rules` (run.py 111-140) adds for one value
of `round_number`, in order: the two `one_of` constraints, then for every
ordered pair of cards the two ownership implications and the three outcome
implications, then the outcome disjunction and the at-most-one-win clause. -/
def roundRules (round_number : Nat) : List Constraint :=
  let plays_A := deck.map (fun card => Form.atom (.plays .A card round_number))
  let plays_B := deck.map (fun card => Form.atom (.plays .B card round_number))
  [Constraint.form (one_of plays_A), Constraint.form (one_of plays_B)]
  ++ deck.flatMap (fun card_x => deck.flatMap (fun card_y =>
      [Constraint.form (.impl (.atom (.plays .A card_x round_number)) (.atom (.owns .A card_x))),
       Constraint.form (.impl (.atom (.plays .B card_y round_number)) (.atom (.owns .B card_y))),
       Constraint.form (.impl
         (.conj (.conj (.atom (.plays .A card_x round_number)) (.atom (.plays .B card_y round_number)))
           (.atom (.higherRank card_x card_y)))
         (.atom (.wins .A round_number))),
       Constraint.form (.impl
         (.conj (.conj (.atom (.plays .B card_y round_number)) (.atom (.plays .A card_x round_number)))
           (.atom (.higherRank card_y card_x)))
         (.atom (.wins .B round_number))),
       Constraint.form (.impl
         (.conj (.conj (.atom (.plays .A card_x round_number)) (.atom (.plays .B card_y round_number)))
           (.atom (.sameRank card_x card_y)))
         (.atom (.tie round_number)))]))
  ++ [Constraint.form (.disj (.disj (.atom (.wins .A round_number)) (.atom (.wins .B round_number)))
        (.atom (.tie round_number))),
      Constraint.form (.neg (.conj (.atom (.wins .A round_number)) (.atom (.wins .B round_number))))]

/-- `enforce_game_rules` (run.py 111-140): the round rules for every round in
`range(1, 27)`. -/
def enforce_game_rules : List Constraint :=
  (List.range' 1 26).flatMap roundRules

/-- The decisive-comparison implications of one tie-break block (run.py
178-192): for every ordered pair of cards, plays at `current_round + 3`
compared with `HigherRank` imply `Wins` of the ORIGINAL round. -/
def decisive_forms (initial_round current_round : Nat) : List Form :=
  deck.flatMap (fun card_x => deck.flatMap (fun card_y =>
    [Form.impl
       (.conj (.conj (.atom (.plays .A card_x (current_round + 3)))
          (.atom (.plays .B card_y (current_round + 3))))
         (.atom (.higherRank card_x card_y)))
       (.atom (.wins .A initial_round)),
     Form.impl
       (.conj (.conj (.atom (.plays .B card_x (current_round + 3)))
          (.atom (.plays .A card_y (current_round + 3))))
         (.atom (.higherRank card_x card_y)))
       (.atom (.wins .B initial_round))]))

/-- The four formulas one iteration of the `while True:` loop of
`resolve_tie_with_quantifiers` appends (run.py 156-193): for each player the
conjunction of the three face-down plays `Plays(p, deck[i], current+i)` for
`i, card in enumerate(deck[:3])`, then the conjunction of the two face-up
disjunctions, then the disjunction of the decisive implications. -/
def block_forms (initial_round current_round : Nat) : List Form :=
  ([Player.A, Player.B].map (fun player =>
    bigAnd ((deck.take 3).enum.map
      (fun ic => Form.atom (.plays player ic.2 (current_round + ic.1))))))
  ++ [bigAnd
       [bigOr (deck.map (fun card =>
          Form.conj (.atom (.plays .A card (current_round + 3))) (.neg (.atom (.owns .B card))))),
        bigOr (deck.map (fun card =>
          Form.conj (.atom (.plays .B card (current_round + 3))) (.neg (.atom (.owns .A card)))))]]
  ++ [bigOr (decisive_forms initial_round current_round)]

/-- Python truthiness of the loop exit test (run.py 195):
`if Wins("Player A", initial_round) or Wins("Player B", initial_round):` —
`or` applied to two bauhaus proposition objects returns the first operand,
an ordinary object, which is truthy, so the test succeeds unconditionally
and the break fires on the first iteration. -/
def tie_break_test (_initial_round : Nat) : Bool := true

/-- The `while True:` loop of `resolve_tie_with_quantifiers` (run.py
156-198), made explicit with a fuel argument: each iteration appends the
four block formulas at `current_round = initial_round + tie_round`, then
runs the break test; `none` models running out of fuel before the break. -/
def tie_loop (initial_round : Nat) (fuel : Nat) (tie_round : Nat) (acc : List Form) :
    Option (List Form) :=
  match fuel with
  | 0 => none
  | Nat.succ fuel =>
    let current_round := initial_round + tie_round
    let acc2 := acc ++ block_forms initial_round current_round
    if tie_break_test initial_round then some acc2
    else tie_loop initial_round fuel (tie_round + 4) acc2

/-- The constraint appended after the loop (run.py 200-203).  Python
precedence parses `~Wins(A,r) & ~Wins(B,r) >> FinalTie(r)` as
`(~Wins(A,r)) & ((~Wins(B,r)) >> FinalTie(r))`, because `>>` binds tighter
than `&`. -/
def final_tie_form (initial_round : Nat) : Form :=
  Form.conj (.neg (.atom (.wins .A initial_round)))
    (.impl (.neg (.atom (.wins .B initial_round))) (.atom (.finalTie initial_round)))

/-- The constraint list the loop has produced when the break fires; since
the break test is unconditionally true, fuel 1 suffices (theorem
`tie_loop_breaks_immediately` shows independence from the fuel). -/
def loop_constraint_forms (initial_round : Nat) : List Form :=
  (tie_loop initial_round 1 0 []).getD []

/-- `resolve_tie_with_quantifiers` (run.py 151-205): `all(constraints)`
over the loop-produced formulas followed by the final-tie formula. -/
def resolve_tie_with_quantifiers (initial_round : Nat) : Form :=
  bigAnd (loop_constraint_forms initial_round ++ [final_tie_form initial_round])

/-- `handle_tie_breaking` (run.py 142-149): for each round in
`range(1, 27)`, `Tie(r) >> resolve_tie_with_quantifiers(r)`. -/
def handle_tie_breaking : List Constraint :=
  (List.range' 1 26).map (fun round_number =>
    Constraint.form (.impl (.atom (.tie round_number))
      (resolve_tie_with_quantifiers round_number)))

/-- The indicator atoms summed by `total_wins_a` / `total_wins_b`
(run.py 210-211): `sum([Wins(p, r) for r in range(1, 27)])`. -/
def total_wins_atoms (player : Player) : List Atom :=
  (List.range' 1 26).map (fun r => Atom.wins player r)

/-- `determine_overall_winner` (run.py 207-215): the three pseudo-Boolean
comparison constraints over the two win-count sums. -/
def determine_overall_winner : List Constraint :=
  [Constraint.sumGtImp (total_wins_atoms .A) (total_wins_atoms .B) (.atom (.overallWinner .A)),
   Constraint.sumGtImp (total_wins_atoms .B) (total_wins_atoms .A) (.atom (.overallWinner .B)),
   Constraint.sumEqImp (total_wins_atoms .A) (total_wins_atoms .B) (.atom .finalTieGame)]

/-- `card.rank in [10, 11, 12, 13, 1]` (run.py 224, 279). -/
def isHighRank (n : Nat) : Bool := ([10, 11, 12, 13, 1] : List Nat).contains n

/-- `biased_shuffle` (run.py 221-239).  In the source the function takes no
parameters yet reads `high_cards_to_a` and `total_high_cards` before any
local assignment, while its only call site passes exactly those two names
as keyword arguments; we model the two names as the parameters the call
site supplies.  The two `random.shuffle` calls are modelled by the identity
permutation (one possible shuffle outcome; the claims about this function
concern counts, which every permutation preserves).  Python slicing
`high_cards[-high_cards_to_b:]` yields the WHOLE list when
`high_cards_to_b == 0`, and the last `b` elements otherwise; both cases are
kept. -/
def biased_shuffle (high_cards_to_a total_high_cards : Nat) : List Card :=
  let high_cards := deck.filter (fun c => isHighRank c.rank)
  let other_cards := deck.filter (fun c => !isHighRank c.rank)
  let a := min (min high_cards_to_a high_cards.length) total_high_cards
  let b := total_high_cards - a
  high_cards.take a ++ other_cards
    ++ (if b = 0 then high_cards else high_cards.drop (high_cards.length - b))

/-- `setup_strategic_card_distribution` (run.py 241-250): splits the biased
deck at its midpoint and asserts ownership, exactly as
`shuffle_and_setup_deck` does. -/
def setup_strategic_card_distribution : List Constraint :=
  shuffle_and_setup_deck (biased_shuffle 15 20)

/-- `"Player B" if favored_player == "Player A" else "Player A"`
(run.py 283, 287). -/
def opponentOf : Player → Player
  | .A => .B
  | .B => .A

/-- `rounds_to_win = int((win_percentage / 100) * total_rounds)` with
`total_rounds = 26` (run.py 273-274); `int` truncates toward zero, which
Nat division matches for the percentages at issue (75 gives 19). -/
def rounds_to_win (win_percentage : Nat) : Nat := win_percentage * 26 / 100

/-- `setup_partial_assignments` (run.py 271-292), parameterized by the
outcome `favored_rounds` of `random.sample(range(1, 27), rounds_to_win)`:
for every favored round and EVERY deck card, a unit `Plays(favored, card,
round)` constraint is added in both branches of the rank test, plus the
pair implications; afterwards `one_of` play constraints are added for both
players for every round in `range(1, 27)`. -/
def setup_partial_assignments (favored_rounds : List Nat) (favored_player : Player) :
    List Constraint :=
  favored_rounds.flatMap (fun round_number =>
    deck.flatMap (fun card =>
      if isHighRank card.rank then
        Constraint.form (.atom (.plays favored_player card round_number)) ::
        deck.flatMap (fun opponent_card =>
          if opponent_card.rank < card.rank then
            [Constraint.form (.atom (.plays (opponentOf favored_player) opponent_card round_number)),
             Constraint.form (.impl (.atom (.higherRank card opponent_card))
               (.atom (.wins favored_player round_number)))]
          else [])
      else
        [Constraint.form (.atom (.plays favored_player card round_number)),
         Constraint.form (.impl (.atom (.plays (opponentOf favored_player) card round_number))
           (.atom (.tie round_number)))]))
  ++ (List.range' 1 26).flatMap (fun round_number =>
      [Constraint.form (one_of (deck.map (fun card => Form.atom (.plays .A card round_number)))),
       Constraint.form (one_of (deck.map (fun card => Form.atom (.plays .B card round_number))))])

/-- The accumulated formula after the ownership stage and the rank stage
of `run_simulation` (normal strategy, shuffle outcome a parameter). -/
def formula_after_ranks (shuffled_deck : List Card) : List Constraint :=
  shuffle_and_setup_deck shuffled_deck ++ setup_rank_comparisons

/-- The accumulated formula after `enforce_game_rules`. -/
def formula_after_rules (shuffled_deck : List Card) : List Constraint :=
  formula_after_ranks shuffled_deck ++ enforce_game_rules

/-- The accumulated formula after `handle_tie_breaking` (the core game
model: ownership, ranks, round rules, tie-breaking). -/
def formula_after_ties (shuffled_deck : List Card) : List Constraint :=
  formula_after_rules shuffled_deck ++ handle_tie_breaking

theorem satisfies_cons (v : Atom → Bool) (c : Constraint) (cs : List Constraint) :
    satisfies v (c :: cs) ↔ c.eval v = true ∧ satisfies v cs :=
  List.forall_mem_cons

theorem satisfies_flatMap {α : Type} (v : Atom → Bool) (f : α → List Constraint)
    (l : List α) : satisfies v (l.flatMap f) ↔ ∀ x ∈ l, satisfies v (f x) := by
  constructor
  · intro h x hx c hc
    exact h c (List.mem_flatMap.mpr ⟨x, hx, hc⟩)
  · intro h c hc
    obtain ⟨x, hx, hc⟩ := List.mem_flatMap.mp hc
    exact h x hx c hc

theorem mem_pairwise_excl (l : List Form) (g : Form) :
    g ∈ pairwise_excl l ↔
      ∃ i, ∃ hi : i < l.length, ∃ j, ∃ hj : j < l.length, i ≠ j ∧
        g = Form.disj (Form.neg l[i]) (Form.neg l[j]) := by
  simp only [pairwise_excl, List.mem_flatMap, List.mem_filterMap, List.mem_range]
  constructor
  · rintro ⟨i, hi, j, hj, hsome⟩
    by_cases hij : i = j
    · simp [hij] at hsome
    · rw [if_pos hij] at hsome
      obtain rfl := Option.some.inj hsome
      exact ⟨i, hi, j, hj, hij,
        by rw [List.getD_eq_getElem l Form.fls hi, List.getD_eq_getElem l Form.fls hj]⟩
  · rintro ⟨i, hi, j, hj, hij, rfl⟩
    refine ⟨i, hi, j, hj, ?_⟩
    rw [if_pos hij, List.getD_eq_getElem l Form.fls hi, List.getD_eq_getElem l Form.fls hj]

/-- Semantics of `one_of`: its formula is true under an assignment exactly
when some listed formula is true and no two positions are simultaneously
true. -/
theorem one_of_eval (v : Atom → Bool) (l : List Form) :
    (one_of l).eval v = true ↔
      ((∃ i, ∃ hi : i < l.length, (l[i]).eval v = true) ∧
       ∀ i j, ∀ hi : i < l.length, ∀ hj : j < l.length, i ≠ j →
         ¬((l[i]).eval v = true ∧ (l[j]).eval v = true)) := by
  unfold one_of
  simp only [Form.eval, Bool.and_eq_true, bigOr_eval, bigAnd_eval, List.any_eq_true,
    List.all_eq_true]
  constructor
  · rintro ⟨h1, h2⟩
    constructor
    · obtain ⟨f, hf, hev⟩ := h1
      obtain ⟨i, hi, rfl⟩ := List.mem_iff_getElem.mp hf
      exact ⟨i, hi, hev⟩
    · rintro i j hi hj hij ⟨hvi, hvj⟩
      have hg := h2 (Form.disj (Form.neg l[i]) (Form.neg l[j]))
        ((mem_pairwise_excl l _).mpr ⟨i, hi, j, hj, hij, rfl⟩)
      simp only [Form.eval, hvi, hvj, Bool.not_true, Bool.or_self] at hg
      exact Bool.false_ne_true hg
  · rintro ⟨⟨i, hi, hev⟩, h2⟩
    refine ⟨⟨l[i], List.getElem_mem hi, hev⟩, ?_⟩
    intro g hg
    obtain ⟨a, ha, b, hb, hab, rfl⟩ := (mem_pairwise_excl l g).mp hg
    simp only [Form.eval, Bool.or_eq_true, Bool.not_eq_true']
    by_cases hva : (l[a]).eval v = true
    · right
      by_cases hvb : (l[b]).eval v = true
      · exact absurd ⟨hva, hvb⟩ (h2 a b ha hb hab)
      · exact Bool.not_eq_true _ ▸ hvb
    · exact Or.inl (Bool.not_eq_true _ ▸ hva)

/-- If exactly one atom of a duplicate-free list is true under `v`, the
`one_of` formula over those atoms evaluates to true. -/
theorem one_of_atoms_sat (v : Atom → Bool) (ps : List Atom) (hnd : ps.Nodup)
    (a : Atom) (ha : a ∈ ps) (hv : v a = true)
    (huniq : ∀ b ∈ ps, v b = true → b = a) :
    (one_of (ps.map Form.atom)).eval v = true := by
  rw [one_of_eval]
  constructor
  · obtain ⟨i, hi, rfl⟩ := List.mem_iff_getElem.mp ha
    refine ⟨i, by simpa using hi, ?_⟩
    simp [List.getElem_map, Form.eval, hv]
  · rintro i j hi hj hij ⟨h1, h2⟩
    rw [List.getElem_map] at h1 h2
    simp only [Form.eval] at h1 h2
    have hilt : i < ps.length := by simpa using hi
    have hjlt : j < ps.length := by simpa using hj
    have e1 : ps[i] = a := huniq _ (List.getElem_mem hilt) h1
    have e2 : ps[j] = a := huniq _ (List.getElem_mem hjlt) h2
    exact hij ((hnd.getElem_inj_iff).mp (e1.trans e2.symm))

/-- If the `one_of` formula over a list of atoms is true under `v`, no two
distinct listed atoms are simultaneously true. -/
theorem one_of_atoms_not_two (v : Atom → Bool) (ps : List Atom)
    (hsat : (one_of (ps.map Form.atom)).eval v = true) (a b : Atom)
    (ha : a ∈ ps) (hb : b ∈ ps) (hab : a ≠ b) :
    ¬(v a = true ∧ v b = true) := by
  rintro ⟨hva, hvb⟩
  rw [one_of_eval] at hsat
  obtain ⟨i, hi, hia⟩ := List.mem_iff_getElem.mp ha
  obtain ⟨j, hj, hjb⟩ := List.mem_iff_getElem.mp hb
  have hij : i ≠ j := by
    intro h
    subst h
    exact hab (hia ▸ hjb ▸ rfl)
  refine hsat.2 i j (by simpa using hi) (by simpa using hj) hij ⟨?_, ?_⟩
  · rw [List.getElem_map]
    simpa [Form.eval, hia] using hva
  · rw [List.getElem_map]
    simpa [Form.eval, hjb] using hvb

/-- The first card constructed into the deck: rank 1 (ace) of hearts. -/
def c0 : Card := ⟨1, .hearts⟩

/-- The 27th card of the deck (first card of Player B's half under the
identity shuffle): rank 7 of clubs. -/
def cB : Card := ⟨7, .clubs⟩

/-- The assignment making every atom true. -/
def vAll : Atom → Bool := fun _ => true

/-- An assignment exhibiting that a round can satisfy the accumulated
round-rule formula with `Wins(A,r)` and `Tie(r)` simultaneously true: both
players play the ace of hearts, all ownership and rank-designated atoms are
true, every `Wins(A,·)` and every `Tie(·)` is true, every `Wins(B,·)` is
false. -/
def vCEx : Atom → Bool
  | .owns _ _ => true
  | .plays _ c _ => decide (c = c0)
  | .wins .A _ => true
  | .wins .B _ => false
  | .tie _ => true
  | .finalTie _ => true
  | .finalTieGame => true
  | .higherRank x y => decide (y.rank < x.rank)
  | .sameRank x y => decide (x.rank = y.rank)
  | .overallWinner _ => true

/-- The card each player plays in every primary round under `v8`. -/
def playedCard : Player → Card
  | .A => c0
  | .B => cB

/-- An assignment exhibiting that a play atom at a tie-break auxiliary
round index (here 29) can be true without the matching ownership atom: no
round ties, Player A plays the ace of hearts and Player B the 7 of clubs in
every primary round (B wins each), and at rounds beyond 26 every play atom
of the ace of hearts is set true although Player B does not own it. -/
def v8 : Atom → Bool
  | .owns .A _ => true
  | .owns .B c => decide (c ≠ c0)
  | .plays p c r => if r ≤ 26 then decide (c = playedCard p) else decide (c = c0)
  | .wins .A _ => false
  | .wins .B _ => true
  | .tie _ => false
  | .finalTie _ => true
  | .finalTieGame => true
  | .higherRank x y => decide (y.rank < x.rank)
  | .sameRank x y => decide (x.rank = y.rank)
  | .overallWinner _ => true

theorem vAll_sat_of_atomic (cs : List Constraint)
    (h : ∀ c ∈ cs, ∃ a, c = Constraint.form (Form.atom a)) : satisfies vAll cs := by
  intro c hc
  obtain ⟨a, rfl⟩ := h c hc
  rfl

theorem vAll_sat_own : satisfies vAll (shuffle_and_setup_deck deck) := by
  apply vAll_sat_of_atomic
  intro c hc
  simp only [shuffle_and_setup_deck, List.mem_append, List.mem_map] at hc
  rcases hc with ⟨card, _, rfl⟩ | ⟨card, _, rfl⟩ <;> exact ⟨_, rfl⟩

/-- Every constraint of the rank-comparison stage is a positive unit atom. -/
theorem rank_constraints_atomic :
    ∀ c ∈ setup_rank_comparisons, ∃ a, c = Constraint.form (Form.atom a) := by
  intro c hc
  simp only [setup_rank_comparisons, List.mem_flatMap] at hc
  obtain ⟨x, _, y, _, hc⟩ := hc
  split at hc
  · simp only [List.mem_singleton] at hc
    exact ⟨_, hc⟩
  · split at hc
    · simp only [List.mem_singleton] at hc
      exact ⟨_, hc⟩
    · simp at hc

theorem vAll_sat_ranks : satisfies vAll (formula_after_ranks deck) := by
  rw [formula_after_ranks, satisfies_append]
  exact ⟨vAll_sat_own, vAll_sat_of_atomic _ rank_constraints_atomic⟩

/-- Any assignment that makes every rank-designated atom true satisfies the
rank-comparison constraints. -/
theorem rank_sat (v : Atom → Bool)
    (hh : ∀ x y : Card, y.rank < x.rank → v (Atom.higherRank x y) = true)
    (hs : ∀ x y : Card, x.rank = y.rank → v (Atom.sameRank x y) = true) :
    satisfies v setup_rank_comparisons := by
  intro c hc
  simp only [setup_rank_comparisons, List.mem_flatMap] at hc
  obtain ⟨x, _, y, _, hc⟩ := hc
  split at hc
  · simp only [List.mem_singleton] at hc
    subst hc
    simpa [Constraint.eval, Form.eval] using hh x y (by omega)
  · split at hc
    · simp only [List.mem_singleton] at hc
      subst hc
      simpa [Constraint.eval, Form.eval] using hs x y (by assumption)
    · simp at hc

/-- If under `v` a player's play atoms of round `r` are true exactly at one
deck card, the round's `one_of` play constraint is satisfied. -/
theorem one_of_plays_sat (v : Atom → Bool) (p : Player) (r : Nat) (cp : Card)
    (hcp : cp ∈ deck)
    (hval : ∀ c ∈ deck, (v (Atom.plays p c r) = true ↔ c = cp)) :
    (one_of (deck.map (fun card => Form.atom (Atom.plays p card r)))).eval v = true := by
  have hmm : deck.map (fun card => Form.atom (Atom.plays p card r))
      = (deck.map (fun card => Atom.plays p card r)).map Form.atom := by
    rw [List.map_map]
    rfl
  rw [hmm]
  refine one_of_atoms_sat v _ ?_ (Atom.plays p cp r) ?_ ?_ ?_
  · refine List.Nodup.map ?_ deck_nodup
    intro a b h
    injection h
  · exact List.mem_map.mpr ⟨cp, hcp, rfl⟩
  · exact (hval cp hcp).mpr rfl
  · intro b hb hvb
    obtain ⟨c, hcdeck, rfl⟩ := List.mem_map.mp hb
    rw [(hval c hcdeck).mp hvb]

theorem vCEx_sat_roundRules (r : Nat) : satisfies vCEx (roundRules r) := by
  intro c hc
  simp only [roundRules, List.mem_append] at hc
  rcases hc with (hc | hc) | hc
  · simp only [List.mem_cons, List.not_mem_nil, or_false] at hc
    rcases hc with rfl | rfl
    · exact one_of_plays_sat vCEx .A r c0 (by decide) (fun c _ => by simp [vCEx])
    · exact one_of_plays_sat vCEx .B r c0 (by decide) (fun c _ => by simp [vCEx])
  · simp only [List.mem_flatMap, List.mem_cons, List.not_mem_nil, or_false] at hc
    obtain ⟨x, hx, y, hy, hc⟩ := hc
    rcases hc with rfl | rfl | rfl | rfl | rfl
    · simp [Constraint.eval, Form.eval, vCEx]
    · simp [Constraint.eval, Form.eval, vCEx]
    · simp [Constraint.eval, Form.eval, vCEx]
    · simp only [Constraint.eval, Form.eval, vCEx]
      rw [Bool.or_eq_true]
      left
      rw [Bool.not_eq_true']
      rw [Bool.and_eq_false_iff]
      by_cases hyx : y = c0
      · by_cases hxx : x = c0
        · right
          subst hyx hxx
          simp [c0]
        · left
          rw [Bool.and_eq_false_iff]
          right
          simpa using hxx
      · left
        rw [Bool.and_eq_false_iff]
        left
        simpa using hyx
    · simp [Constraint.eval, Form.eval, vCEx]
  · simp only [List.mem_cons, List.not_mem_nil, or_false] at hc
    rcases hc with rfl | rfl
    · simp [Constraint.eval, Form.eval, vCEx]
    · simp [Constraint.eval, Form.eval, vCEx]

theorem vCEx_sat_rules : satisfies vCEx (formula_after_rules deck) := by
  rw [formula_after_rules, satisfies_append]
  constructor
  · rw [formula_after_ranks, satisfies_append]
    refine ⟨?_, rank_sat vCEx (fun x y h => by simp [vCEx, h]) (fun x y h => by simp [vCEx, h])⟩
    intro c hc
    simp only [shuffle_and_setup_deck, List.mem_append, List.mem_map] at hc
    rcases hc with ⟨card, _, rfl⟩ | ⟨card, _, rfl⟩ <;> rfl
  · intro c hc
    simp only [enforce_game_rules, List.mem_flatMap] at hc
    obtain ⟨r, _, hc⟩ := hc
    exact vCEx_sat_roundRules r c hc

theorem dropHalf_ne_c0 : ∀ card ∈ deck.drop (deck.length / 2), card ≠ c0 := by decide

theorem v8_sat_roundRules (r : Nat) (hr : r ≤ 26) : satisfies v8 (roundRules r) := by
  intro c hc
  simp only [roundRules, List.mem_append] at hc
  rcases hc with (hc | hc) | hc
  · simp only [List.mem_cons, List.not_mem_nil, or_false] at hc
    rcases hc with rfl | rfl
    · exact one_of_plays_sat v8 .A r c0 (by decide)
        (fun c _ => by simp [v8, playedCard, if_pos hr])
    · exact one_of_plays_sat v8 .B r cB (by decide)
        (fun c _ => by simp [v8, playedCard, if_pos hr])
  · simp only [List.mem_flatMap, List.mem_cons, List.not_mem_nil, or_false] at hc
    obtain ⟨x, hx, y, hy, hc⟩ := hc
    rcases hc with rfl | rfl | rfl | rfl | rfl
    · simp [Constraint.eval, Form.eval, v8]
    · simp only [Constraint.eval, Form.eval, v8, playedCard, if_pos hr]
      rw [Bool.or_eq_true]
      by_cases hyc : y = cB
      · right
        subst hyc
        simp [cB, c0]
      · left
        simp [hyc]
    · simp only [Constraint.eval, Form.eval, v8, playedCard, if_pos hr]
      rw [Bool.or_eq_true]
      left
      rw [Bool.not_eq_true']
      by_cases hxc : x = c0
      · by_cases hyc : y = cB
        · subst hxc hyc
          simp [c0, cB]
        · simp [hyc]
      · simp [hxc]
    · simp [Constraint.eval, Form.eval, v8]
    · simp only [Constraint.eval, Form.eval, v8, playedCard, if_pos hr]
      rw [Bool.or_eq_true]
      left
      rw [Bool.not_eq_true']
      by_cases hxc : x = c0
      · by_cases hyc : y = cB
        · subst hxc hyc
          simp [c0, cB]
        · simp [hyc]
      · simp [hxc]
  · simp only [List.mem_cons, List.not_mem_nil, or_false] at hc
    rcases hc with rfl | rfl
    · simp [Constraint.eval, Form.eval, v8]
    · simp [Constraint.eval, Form.eval, v8]

theorem v8_sat_ties : satisfies v8 (formula_after_ties deck) := by
  rw [formula_after_ties, satisfies_append]
  constructor
  · rw [formula_after_rules, satisfies_append]
    constructor
    · rw [formula_after_ranks, satisfies_append]
      refine ⟨?_, rank_sat v8 (fun x y h => by simp [v8, h]) (fun x y h => by simp [v8, h])⟩
      intro c hc
      simp only [shuffle_and_setup_deck, List.mem_append, List.mem_map] at hc
      rcases hc with ⟨card, _, rfl⟩ | ⟨card, hcard, rfl⟩
      · rfl
      · exact decide_eq_true (dropHalf_ne_c0 card hcard)
    · intro c hc
      simp only [enforce_game_rules, List.mem_flatMap, List.mem_range'_1] at hc
      obtain ⟨r, ⟨_, hr2⟩, hc⟩ := hc
      exact v8_sat_roundRules r (by omega) c hc
  · intro c hc
    simp only [handle_tie_breaking, List.mem_map] at hc
    obtain ⟨r, _, rfl⟩ := hc
    rfl

/-- C2 counterexample: the claim that after ownership setup exactly one of
Owns(A,c), Owns(B,c) holds in every satisfying assignment is false — the
all-true assignment satisfies every constraint the ownership stage adds
(for the identity shuffle outcome) while making BOTH Owns(A, ace of
hearts) and Owns(B, ace of hearts) true, because the code only asserts the
designated positive ownership literals and never a negative one. -/
theorem c2_counterexample :
    satisfies vAll (shuffle_and_setup_deck deck) ∧
    vAll (Atom.owns .A c0) = true ∧ vAll (Atom.owns .B c0) = true :=
  ⟨vAll_sat_own, rfl, rfl⟩

/-- C2 amended: after ownership setup, every card of the shuffled deck has
AT LEAST one owner in every satisfying assignment (its designated player's
ownership atom is asserted as a unit constraint); the exactly-one half of
the claim fails since at-most-one is never enforced. -/
theorem c2_at_least_one_owner (shuffled_deck : List Card) (v : Atom → Bool)
    (hsat : satisfies v (shuffle_and_setup_deck shuffled_deck)) :
    ∀ c ∈ shuffled_deck, v (Atom.owns .A c) = true ∨ v (Atom.owns .B c) = true := by
  intro c hc
  rw [← List.take_append_drop (shuffled_deck.length / 2) shuffled_deck,
    List.mem_append] at hc
  rcases hc with hc | hc
  · left
    refine hsat (Constraint.form (.atom (.owns .A c))) ?_
    simp only [shuffle_and_setup_deck, List.mem_append, List.mem_map]
    exact Or.inl ⟨c, hc, rfl⟩
  · right
    refine hsat (Constraint.form (.atom (.owns .B c))) ?_
    simp only [shuffle_and_setup_deck, List.mem_append, List.mem_map]
    exact Or.inr ⟨c, hc, rfl⟩

theorem c2_witness :
    satisfies vAll (shuffle_and_setup_deck deck) ∧ c0 ∈ deck ∧
    (vAll (Atom.owns .A c0) = true ∨ vAll (Atom.owns .B c0) = true) :=
  ⟨vAll_sat_own, by decide,
    c2_at_least_one_owner deck vAll vAll_sat_own c0 (by decide)⟩

/-- C3 counterexample: the claim that exactly one of Win(A,r), Win(B,r),
Tie(r) holds in every satisfying assignment is false — the assignment
`vCEx` satisfies the whole accumulated formula through the round-rule
stage while making Win(A,1) and Tie(1) simultaneously true, because the
code never asserts exclusion between a Win and a Tie. -/
theorem c3_counterexample :
    satisfies vCEx (formula_after_rules deck) ∧
    vCEx (Atom.wins .A 1) = true ∧ vCEx (Atom.tie 1) = true :=
  ⟨vCEx_sat_rules, rfl, rfl⟩

/-- C3 amended: for every primary round, every satisfying assignment of
the accumulated formula makes the outcome disjunction Win(A,r) ∨ Win(B,r)
∨ Tie(r) true and at most one of the two Wins true; simultaneous Win and
Tie is NOT excluded (see the counterexample). -/
theorem c3_outcome_disjunction (shuffled_deck : List Card) (v : Atom → Bool)
    (hsat : satisfies v (formula_after_rules shuffled_deck))
    (r : Nat) (hr1 : 1 ≤ r) (hr2 : r ≤ 26) :
    (v (Atom.wins .A r) = true ∨ v (Atom.wins .B r) = true ∨ v (Atom.tie r) = true) ∧
    ¬(v (Atom.wins .A r) = true ∧ v (Atom.wins .B r) = true) := by
  have hrmem : r ∈ List.range' 1 26 := List.mem_range'_1.mpr ⟨hr1, by omega⟩
  constructor
  · have hmem : Constraint.form (.disj (.disj (.atom (.wins .A r)) (.atom (.wins .B r)))
        (.atom (.tie r))) ∈ formula_after_rules shuffled_deck := by
      rw [formula_after_rules, List.mem_append]
      right
      simp only [enforce_game_rules, List.mem_flatMap]
      refine ⟨r, hrmem, ?_⟩
      simp only [roundRules, List.mem_append]
      right
      simp
    have hev := hsat _ hmem
    simp only [Constraint.eval, Form.eval, Bool.or_eq_true] at hev
    tauto
  · have hmem : Constraint.form (.neg (.conj (.atom (.wins .A r)) (.atom (.wins .B r))))
        ∈ formula_after_rules shuffled_deck := by
      rw [formula_after_rules, List.mem_append]
      right
      simp only [enforce_game_rules, List.mem_flatMap]
      refine ⟨r, hrmem, ?_⟩
      simp only [roundRules, List.mem_append]
      right
      simp
    have hev := hsat _ hmem
    simp only [Constraint.eval, Form.eval, Bool.not_eq_true', Bool.and_eq_false_iff,
      Bool.not_eq_true] at hev
    rintro ⟨h1, h2⟩
    rcases hev with hev | hev
    · exact absurd h1 (by simp [hev])
    · exact absurd h2 (by simp [hev])

theorem c3_witness :
    satisfies vCEx (formula_after_rules deck) ∧
    ((vCEx (Atom.wins .A 1) = true ∨ vCEx (Atom.wins .B 1) = true ∨
        vCEx (Atom.tie 1) = true) ∧
     ¬(vCEx (Atom.wins .A 1) = true ∧ vCEx (Atom.wins .B 1) = true)) :=
  ⟨vCEx_sat_rules,
    c3_outcome_disjunction deck vCEx vCEx_sat_rules 1 (by decide) (by decide)⟩

/-- C7 counterexample: the claim that in every satisfying assignment
HigherRank is irreflexive/antisymmetric and exactly one of HigherRank(x,y),
HigherRank(y,x), SameRank(x,y) holds is false — the all-true assignment
satisfies the whole accumulated formula through the rank stage while making
HigherRank(ace♥, ace♥), SameRank(ace♥, ace♥) and both directions of
HigherRank between the ace and two of hearts all true: the code asserts
only positive rank literals, never the excluding negative ones. -/
theorem c7_counterexample :
    satisfies vAll (formula_after_ranks deck) ∧
    vAll (Atom.higherRank c0 c0) = true ∧
    vAll (Atom.sameRank c0 c0) = true ∧
    vAll (Atom.higherRank c0 ⟨2, .hearts⟩) = true ∧
    vAll (Atom.higherRank ⟨2, .hearts⟩ c0) = true :=
  ⟨vAll_sat_ranks, rfl, rfl, rfl, rfl⟩

/-- C7 amended: every satisfying assignment of the accumulated formula
through the rank stage makes the designated positive rank facts true —
HigherRank(x,y) whenever x.rank > y.rank and SameRank(x,y) whenever the
ranks agree — and hence at least one of HigherRank(x,y), HigherRank(y,x),
SameRank(x,y) holds for every pair of deck cards; the negative halves of
the claim (irreflexivity, antisymmetry, uniqueness, and enforced
transitivity) fail, per the counterexample. -/
theorem c7_rank_facts (shuffled_deck : List Card) (v : Atom → Bool)
    (hsat : satisfies v (formula_after_ranks shuffled_deck))
    (x : Card) (hx : x ∈ deck) (y : Card) (hy : y ∈ deck) :
    (y.rank < x.rank → v (Atom.higherRank x y) = true) ∧
    (x.rank = y.rank → v (Atom.sameRank x y) = true) ∧
    (v (Atom.higherRank x y) = true ∨ v (Atom.higherRank y x) = true ∨
      v (Atom.sameRank x y) = true) := by
  have hmemH : ∀ a : Card, a ∈ deck → ∀ b : Card, b ∈ deck → b.rank < a.rank →
      v (Atom.higherRank a b) = true := by
    intro a ha b hb hab
    refine hsat (Constraint.form (.atom (.higherRank a b))) ?_
    rw [formula_after_ranks, List.mem_append]
    right
    simp only [setup_rank_comparisons, List.mem_flatMap]
    refine ⟨a, ha, b, hb, ?_⟩
    rw [if_pos hab]
    simp
  have hmemS : ∀ a : Card, a ∈ deck → ∀ b : Card, b ∈ deck → a.rank = b.rank →
      v (Atom.sameRank a b) = true := by
    intro a ha b hb hab
    refine hsat (Constraint.form (.atom (.sameRank a b))) ?_
    rw [formula_after_ranks, List.mem_append]
    right
    simp only [setup_rank_comparisons, List.mem_flatMap]
    refine ⟨a, ha, b, hb, ?_⟩
    rw [if_neg (by omega), if_pos hab]
    simp
  refine ⟨fun h => hmemH x hx y hy h, fun h => hmemS x hx y hy h, ?_⟩
  rcases Nat.lt_trichotomy x.rank y.rank with h | h | h
  · exact Or.inr (Or.inl (hmemH y hy x hx h))
  · exact Or.inr (Or.inr (hmemS x hx y hy h))
  · exact Or.inl (hmemH x hx y hy h)

theorem c7_witness :
    satisfies vAll (formula_after_ranks deck) ∧
    (vAll (Atom.higherRank c0 c0) = true ∨ vAll (Atom.higherRank c0 c0) = true ∨
      vAll (Atom.sameRank c0 c0) = true) :=
  ⟨vAll_sat_ranks,
    (c7_rank_facts deck vAll vAll_sat_ranks c0 (by decide) c0 (by decide)).2.2⟩

/-- C8 counterexample: the claim that Play(p,c,r) implies Ownership(p,c)
in every satisfying assignment for EVERY round is false once tie-break
auxiliary round indices are included — the assignment `v8` satisfies the
whole accumulated formula through the tie-breaking stage while making
Plays(B, ace♥, 29) true and Owns(B, ace♥) false: plays at auxiliary round
indices 27..29 (reachable from tied rounds 24..26) carry no ownership
implication. -/
theorem c8_counterexample :
    satisfies v8 (formula_after_ties deck) ∧
    v8 (Atom.plays .B c0 29) = true ∧ v8 (Atom.owns .B c0) = false :=
  ⟨v8_sat_ties, rfl, rfl⟩

/-- C8 amended: the play-implies-ownership implication does hold for every
PRIMARY round 1..26, every player and every deck card in every satisfying
assignment of the accumulated formula; it fails only for play atoms at
tie-break auxiliary indices beyond the primary horizon. -/
theorem c8_play_implies_own (shuffled_deck : List Card) (v : Atom → Bool)
    (hsat : satisfies v (formula_after_ties shuffled_deck))
    (r : Nat) (hr1 : 1 ≤ r) (hr2 : r ≤ 26) (p : Player) (c : Card) (hc : c ∈ deck)
    (hplay : v (Atom.plays p c r) = true) : v (Atom.owns p c) = true := by
  have hrmem : r ∈ List.range' 1 26 := List.mem_range'_1.mpr ⟨hr1, by omega⟩
  have hmem : Constraint.form (.impl (.atom (.plays p c r)) (.atom (.owns p c)))
      ∈ formula_after_ties shuffled_deck := by
    rw [formula_after_ties, List.mem_append]
    left
    rw [formula_after_rules, List.mem_append]
    right
    simp only [enforce_game_rules, List.mem_flatMap]
    refine ⟨r, hrmem, ?_⟩
    simp only [roundRules, List.mem_append]
    left
    right
    rw [List.mem_flatMap]
    refine ⟨c, hc, ?_⟩
    rw [List.mem_flatMap]
    refine ⟨c, hc, ?_⟩
    cases p <;> simp
  have hev := hsat _ hmem
  simp only [Constraint.eval, Form.eval, hplay, Bool.not_true, Bool.false_or] at hev
  exact hev

theorem c8_witness :
    satisfies v8 (formula_after_ties deck) ∧ v8 (Atom.plays .A c0 1) = true ∧
    v8 (Atom.owns .A c0) = true :=
  ⟨v8_sat_ties, rfl,
    c8_play_implies_own deck v8 v8_sat_ties 1 (by decide) (by decide) .A c0
      (by decide) rfl⟩

/-- C1: for every round r in 1..26 and each player p, `enforce_game_rules`
adds the `one_of` exactly-one-play constraint over the 52 play propositions
of the deck, and for every non-empty list of play propositions the formula
`one_of` builds is logically equivalent to the conjunction of "at least one
of the propositions is true" and "no two of them are simultaneously
true". -/
theorem c1_one_of_exactly_one (r : Nat) (hr1 : 1 ≤ r) (hr2 : r ≤ 26) (p : Player)
    (ps : List Atom) (_hps : ps ≠ []) (v : Atom → Bool) :
    (Constraint.form (one_of (deck.map (fun card => Form.atom (Atom.plays p card r))))
        ∈ enforce_game_rules) ∧
    (deck.map (fun card => Form.atom (Atom.plays p card r))).length = 52 ∧
    ((one_of (ps.map Form.atom)).eval v = true ↔
      ((∃ a ∈ ps, v a = true) ∧
       ∀ i j, ∀ hi : i < ps.length, ∀ hj : j < ps.length, i ≠ j →
         ¬(v ps[i] = true ∧ v ps[j] = true))) := by
  refine ⟨?_, by simp [deck_length], ?_⟩
  · simp only [enforce_game_rules, List.mem_flatMap]
    refine ⟨r, List.mem_range'_1.mpr ⟨hr1, by omega⟩, ?_⟩
    simp only [roundRules, List.mem_append]
    left
    left
    cases p <;> simp
  · rw [one_of_eval]
    apply and_congr
    · constructor
      · rintro ⟨i, hi, hev⟩
        rw [List.getElem_map] at hev
        simp only [Form.eval] at hev
        exact ⟨_, List.getElem_mem (by simpa using hi), hev⟩
      · rintro ⟨a, ha, hva⟩
        obtain ⟨i, hi, rfl⟩ := List.mem_iff_getElem.mp ha
        refine ⟨i, by simpa using hi, ?_⟩
        rw [List.getElem_map]
        simpa [Form.eval] using hva
    · constructor
      · rintro h i j hi hj hij ⟨h1, h2⟩
        refine h i j (by simpa using hi) (by simpa using hj) hij ⟨?_, ?_⟩
        · rw [List.getElem_map]
          simpa [Form.eval] using h1
        · rw [List.getElem_map]
          simpa [Form.eval] using h2
      · rintro h i j hi hj hij ⟨h1, h2⟩
        rw [List.getElem_map] at h1 h2
        simp only [Form.eval] at h1 h2
        exact h i j (by simpa using hi) (by simpa using hj) hij ⟨h1, h2⟩

theorem c1_witness :
    ((1:Nat) ≤ 1 ∧ (1:Nat) ≤ 26 ∧ ([Atom.finalTieGame] : List Atom) ≠ []) ∧
    ((Constraint.form (one_of (deck.map (fun card => Form.atom (Atom.plays Player.A card 1))))
        ∈ enforce_game_rules) ∧
     (deck.map (fun card => Form.atom (Atom.plays Player.A card 1))).length = 52 ∧
     ((one_of (([Atom.finalTieGame] : List Atom).map Form.atom)).eval vAll = true ↔
       ((∃ a ∈ ([Atom.finalTieGame] : List Atom), vAll a = true) ∧
        ∀ i j, ∀ hi : i < ([Atom.finalTieGame] : List Atom).length,
          ∀ hj : j < ([Atom.finalTieGame] : List Atom).length, i ≠ j →
          ¬(vAll (([Atom.finalTieGame] : List Atom)[i]) = true ∧
            vAll (([Atom.finalTieGame] : List Atom)[j]) = true)))) :=
  ⟨⟨by decide, by decide, by decide⟩,
    c1_one_of_exactly_one 1 (by decide) (by decide) Player.A [Atom.finalTieGame]
      (by decide) vAll⟩

/-- C10: for every sampled favored-round list, favored player, and favored
round r within the horizon, `setup_partial_assignments` adds the unit play
constraint `Plays(favored, c, r)` for every one of the 52 deck cards AND
the exactly-one-play constraint for the favored player in round r, so its
constraint set is unsatisfiable; with win_percentage 75 as used by
`run_simulation`, rounds_to_win is 19 ≥ 1, so favored rounds are indeed
sampled. -/
theorem c10_partial_assignments_unsat (favored_rounds : List Nat) (fp : Player)
    (r : Nat) (hr : r ∈ favored_rounds) (hr1 : 1 ≤ r) (hr2 : r ≤ 26) :
    rounds_to_win 75 = 19 ∧
    (∀ c ∈ deck, Constraint.form (.atom (.plays fp c r))
        ∈ setup_partial_assignments favored_rounds fp) ∧
    (Constraint.form (one_of (deck.map (fun card => Form.atom (Atom.plays fp card r))))
        ∈ setup_partial_assignments favored_rounds fp) ∧
    (∀ v, ¬ satisfies v (setup_partial_assignments favored_rounds fp)) := by
  have hunit : ∀ c ∈ deck, Constraint.form (.atom (.plays fp c r))
      ∈ setup_partial_assignments favored_rounds fp := by
    intro c hc
    simp only [setup_partial_assignments, List.mem_append]
    left
    rw [List.mem_flatMap]
    refine ⟨r, hr, ?_⟩
    rw [List.mem_flatMap]
    refine ⟨c, hc, ?_⟩
    by_cases hhigh : isHighRank c.rank
    · rw [if_pos hhigh]
      exact List.mem_cons_self _ _
    · rw [if_neg hhigh]
      simp
  have hone : Constraint.form (one_of (deck.map (fun card => Form.atom (Atom.plays fp card r))))
      ∈ setup_partial_assignments favored_rounds fp := by
    simp only [setup_partial_assignments, List.mem_append]
    right
    rw [List.mem_flatMap]
    refine ⟨r, List.mem_range'_1.mpr ⟨hr1, by omega⟩, ?_⟩
    cases fp <;> simp
  refine ⟨by decide, hunit, hone, ?_⟩
  intro v hv
  have h0 : v (Atom.plays fp c0 r) = true :=
    hv _ (hunit c0 (by decide))
  have h1 : v (Atom.plays fp ⟨1, .diamonds⟩ r) = true :=
    hv _ (hunit ⟨1, .diamonds⟩ (by decide))
  have hsat := hv _ hone
  have hmm : deck.map (fun card => Form.atom (Atom.plays fp card r))
      = (deck.map (fun card => Atom.plays fp card r)).map Form.atom := by
    rw [List.map_map]
    rfl
  rw [show Constraint.eval v (Constraint.form (one_of (deck.map
      (fun card => Form.atom (Atom.plays fp card r)))))
    = (one_of (deck.map (fun card => Form.atom (Atom.plays fp card r)))).eval v from rfl,
    hmm] at hsat
  refine one_of_atoms_not_two v _ hsat (Atom.plays fp c0 r)
    (Atom.plays fp ⟨1, .diamonds⟩ r) ?_ ?_ ?_ ⟨h0, h1⟩
  · exact List.mem_map.mpr ⟨c0, by decide, rfl⟩
  · exact List.mem_map.mpr ⟨⟨1, .diamonds⟩, by decide, rfl⟩
  · intro h
    injection h with hp hc hr
    exact absurd hc (by decide)

theorem c10_witness :
    ((1:Nat) ∈ ([1] : List Nat) ∧ (1:Nat) ≤ 1 ∧ (1:Nat) ≤ 26) ∧
    ¬ satisfies vAll (setup_partial_assignments [1] Player.A) :=
  ⟨⟨by decide, by decide, by decide⟩,
    (c10_partial_assignments_unsat [1] Player.A 1 (by decide) (by decide)
      (by decide)).2.2.2 vAll⟩

theorem mem_atoms_bigAnd (a : Atom) (l : List Form) :
    a ∈ (bigAnd l).atoms ↔ ∃ f ∈ l, a ∈ f.atoms := by
  induction l with
  | nil => simp [bigAnd, Form.atoms]
  | cons f l ih =>
    show a ∈ (Form.conj f (bigAnd l)).atoms ↔ _
    simp only [Form.atoms, List.mem_append, ih, List.mem_cons]
    constructor
    · rintro (h | ⟨g, hg, hag⟩)
      · exact ⟨f, Or.inl rfl, h⟩
      · exact ⟨g, Or.inr hg, hag⟩
    · rintro ⟨g, (rfl | hg), hag⟩
      · exact Or.inl hag
      · exact Or.inr ⟨g, hg, hag⟩

theorem mem_atoms_bigOr (a : Atom) (l : List Form) :
    a ∈ (bigOr l).atoms ↔ ∃ f ∈ l, a ∈ f.atoms := by
  induction l with
  | nil => simp [bigOr, Form.atoms]
  | cons f l ih =>
    show a ∈ (Form.disj f (bigOr l)).atoms ↔ _
    simp only [Form.atoms, List.mem_append, ih, List.mem_cons]
    constructor
    · rintro (h | ⟨g, hg, hag⟩)
      · exact ⟨f, Or.inl rfl, h⟩
      · exact ⟨g, Or.inr hg, hag⟩
    · rintro ⟨g, (rfl | hg), hag⟩
      · exact Or.inl hag
      · exact Or.inr ⟨g, hg, hag⟩

/-- Every `Wins` atom occurring anywhere in the tie-break formula for round
`r` carries the ORIGINAL round index `r` — the outcome redirection of the
tie-break block. -/
theorem wins_atom_round_resolve_tie (r : Nat) (p : Player) (k : Nat)
    (h : Atom.wins p k ∈ (resolve_tie_with_quantifiers r).atoms) : k = r := by
  rw [resolve_tie_with_quantifiers, mem_atoms_bigAnd] at h
  obtain ⟨f, hf, ha⟩ := h
  rw [List.mem_append] at hf
  rcases hf with hf | hf
  · have hf2 : f ∈ block_forms r r := by
      simpa [loop_constraint_forms, tie_loop, tie_break_test] using hf
    simp only [block_forms, List.mem_append, List.mem_map, List.mem_cons,
      List.not_mem_nil, or_false] at hf2
    rcases hf2 with (⟨player, hpl, rfl⟩ | rfl) | rfl
    · rw [mem_atoms_bigAnd] at ha
      obtain ⟨g, hg, hag⟩ := ha
      rw [List.mem_map] at hg
      obtain ⟨ic, _, rfl⟩ := hg
      simp [Form.atoms] at hag
    · rw [mem_atoms_bigAnd] at ha
      obtain ⟨g, hg, hag⟩ := ha
      simp only [List.mem_cons, List.not_mem_nil, or_false] at hg
      rcases hg with rfl | rfl <;>
      · rw [mem_atoms_bigOr] at hag
        obtain ⟨g2, hg2, hag2⟩ := hag
        rw [List.mem_map] at hg2
        obtain ⟨card, _, rfl⟩ := hg2
        simp [Form.atoms] at hag2
    · rw [mem_atoms_bigOr] at ha
      obtain ⟨g, hg, hag⟩ := ha
      simp only [decisive_forms, List.mem_flatMap, List.mem_cons, List.not_mem_nil,
        or_false] at hg
      obtain ⟨x, _, y, _, hg⟩ := hg
      rcases hg with rfl | rfl <;>
      · simp only [Form.atoms, List.mem_append, List.mem_singleton, List.mem_cons,
          List.not_mem_nil, or_false, reduceCtorEq, Atom.wins.injEq, false_or] at hag
        exact hag.2
  · rw [List.mem_singleton] at hf
    subst hf
    simp only [final_tie_form, Form.atoms, List.mem_append, List.mem_singleton,
      reduceCtorEq, Atom.wins.injEq, or_false] at ha
    rcases ha with ha | ha
    · exact ha.2
    · exact ha.2

/-- C4: contrary to the claim, the code has no configured tie-break depth
bound at all — the break test of the `while True:` loop is unconditionally
true under Python object truthiness, so for EVERY fuel value the loop
allocates exactly one auxiliary block and stops (no depth-3 retry
structure exists), and the appended terminal constraint is
¬Win(A,r) ∧ (¬Win(B,r) → FinalTie(r)) by Python precedence, not an
asserted FinalTie(r) together with ¬Win(A,r) ∧ ¬Win(B,r). -/
theorem c4_no_depth_bound (r fuel : Nat) (hfuel : 1 ≤ fuel) :
    tie_loop r fuel 0 [] = some (block_forms r r) ∧
    loop_constraint_forms r = block_forms r r ∧
    resolve_tie_with_quantifiers r = bigAnd (block_forms r r ++
      [Form.conj (.neg (.atom (.wins .A r)))
        (.impl (.neg (.atom (.wins .B r))) (.atom (.finalTie r)))]) := by
  refine ⟨?_, rfl, rfl⟩
  cases fuel with
  | zero => omega
  | succ n => simp [tie_loop, tie_break_test]

theorem c4_witness :
    (1:Nat) ≤ 1 ∧ tie_loop 1 1 0 [] = some (block_forms 1 1) :=
  ⟨by decide, (c4_no_depth_bound 1 1 (by decide)).1⟩

/-- C5: every decisive implication of a tie-break block compares the
fourth plays of the block (round index current+3) but targets `Wins` of
the ORIGINAL tied round r; indeed every `Wins` atom occurring anywhere in
the tie-break formula for round r carries index r, and the
outcome-aggregation sums contain only `Wins` atoms of the primary rounds
1..26 — no auxiliary index beyond the horizon ever enters them. -/
theorem c5_redirect_and_aggregation (r : Nat) :
    (∀ g ∈ decisive_forms r r, ∃ x, x ∈ deck ∧ ∃ y, y ∈ deck ∧
      (g = Form.impl (.conj (.conj (.atom (.plays .A x (r + 3)))
          (.atom (.plays .B y (r + 3)))) (.atom (.higherRank x y)))
          (.atom (.wins .A r)) ∨
       g = Form.impl (.conj (.conj (.atom (.plays .B x (r + 3)))
          (.atom (.plays .A y (r + 3)))) (.atom (.higherRank x y)))
          (.atom (.wins .B r)))) ∧
    (∀ p k, Atom.wins p k ∈ (resolve_tie_with_quantifiers r).atoms → k = r) ∧
    (∀ p, ∀ a ∈ total_wins_atoms p, ∃ i, 1 ≤ i ∧ i ≤ 26 ∧ a = Atom.wins p i) := by
  refine ⟨?_, fun p k h => wins_atom_round_resolve_tie r p k h, ?_⟩
  · intro g hg
    simp only [decisive_forms, List.mem_flatMap, List.mem_cons, List.not_mem_nil,
      or_false] at hg
    obtain ⟨x, hx, y, hy, hg⟩ := hg
    exact ⟨x, hx, y, hy, hg⟩
  · intro p a ha
    simp only [total_wins_atoms, List.mem_map, List.mem_range'_1] at ha
    obtain ⟨i, ⟨h1, h2⟩, rfl⟩ := ha
    exact ⟨i, h1, by omega, rfl⟩

theorem c5_witness :
    (Atom.wins Player.A 1 ∈ (resolve_tie_with_quantifiers 1).atoms) ∧ (1:Nat) = 1 := by
  have hmem : Atom.wins Player.A 1 ∈ (resolve_tie_with_quantifiers 1).atoms := by
    rw [resolve_tie_with_quantifiers, mem_atoms_bigAnd]
    refine ⟨final_tie_form 1, List.mem_append_right _ ?_, ?_⟩
    · simp
    · simp [final_tie_form, Form.atoms]
  exact ⟨hmem, (c5_redirect_and_aggregation 1).2.1 Player.A 1 hmem⟩

theorem vAll_sat_winner : satisfies vAll determine_overall_winner := by
  intro c hc
  simp only [determine_overall_winner, List.mem_cons, List.not_mem_nil, or_false] at hc
  rcases hc with rfl | rfl | rfl <;> decide

/-- C6: the outcome aggregator sums the win indicators over exactly the
primary horizon 1..26 for each player and adds the three comparison
constraints as one-directional implications: a strict majority forces
OverallWinner of that player, and equality forces FinalTie(game), in every
satisfying assignment; the converses are not forced — an assignment with
OverallWinner(A) true and no majority for A still satisfies the
constraints. -/
theorem c6_aggregator (v : Atom → Bool) (hsat : satisfies v determine_overall_winner) :
    ((countTrue v (total_wins_atoms .B) < countTrue v (total_wins_atoms .A) →
        v (Atom.overallWinner .A) = true) ∧
     (countTrue v (total_wins_atoms .A) < countTrue v (total_wins_atoms .B) →
        v (Atom.overallWinner .B) = true) ∧
     (countTrue v (total_wins_atoms .A) = countTrue v (total_wins_atoms .B) →
        v Atom.finalTieGame = true)) ∧
    (∀ p, total_wins_atoms p = (List.range' 1 26).map (fun i => Atom.wins p i)) ∧
    (∃ w : Atom → Bool, satisfies w determine_overall_winner ∧
      w (Atom.overallWinner .A) = true ∧
      ¬(countTrue w (total_wins_atoms .B) < countTrue w (total_wins_atoms .A))) := by
  refine ⟨⟨?_, ?_, ?_⟩, fun p => rfl, ⟨vAll, vAll_sat_winner, rfl, by decide⟩⟩
  · intro hlt
    have h := hsat _ (List.mem_cons_self _ _)
    simp only [Constraint.eval, Bool.or_eq_true, Bool.not_eq_true',
      decide_eq_false_iff_not] at h
    rcases h with h | h
    · exact absurd hlt h
    · simpa [Form.eval] using h
  · intro hlt
    have h := hsat _ (List.mem_cons_of_mem _ (List.mem_cons_self _ _))
    simp only [Constraint.eval, Bool.or_eq_true, Bool.not_eq_true',
      decide_eq_false_iff_not] at h
    rcases h with h | h
    · exact absurd hlt h
    · simpa [Form.eval] using h
  · intro heq
    have h := hsat _
      (List.mem_cons_of_mem _ (List.mem_cons_of_mem _ (List.mem_cons_self _ _)))
    simp only [Constraint.eval, Bool.or_eq_true, Bool.not_eq_true',
      decide_eq_false_iff_not] at h
    rcases h with h | h
    · exact absurd heq h
    · simpa [Form.eval] using h

theorem c6_witness :
    satisfies vAll determine_overall_winner ∧
    (countTrue vAll (total_wins_atoms .A) = countTrue vAll (total_wins_atoms .B) →
      vAll Atom.finalTieGame = true) :=
  ⟨vAll_sat_winner, (c6_aggregator vAll vAll_sat_winner).1.2.2⟩

/-- C9: no high-card-count validation exists in `biased_shuffle` — an
excessive request is silently clamped with `min` instead of raising a
configuration error, and because the Python slice `high_cards[-0:]` is the
whole pool, requesting 25 of the 20 available high cards (request exceeds
availability) returns without any failure a malformed 72-card deck that
duplicates all 20 high cards. -/
theorem c9_no_validation_error :
    (deck.filter (fun c => isHighRank c.rank)).length = 20 ∧
    20 < 25 ∧
    (biased_shuffle 25 20).length = 72 :=
  ⟨by decide, by decide, by decide⟩
